import Mathlib

/-!
Shallow embedding of `src/algorithms/sub.rs` (magnitude subtraction kernels of
an arbitrary-precision integer library), together with proofs of the spec's
claims about it.

A machine digit (`BigDigit`, an unsigned `W`-bit word) is embedded as a `Nat`
together with the side condition `d < 2 ^ w`; a magnitude is a little-endian
`List Nat` of digits.  The signed double-width borrow accumulator
(`SignedDoubleBigDigit`) is embedded as an unbounded `Int`: the theorem for the
digit-pair subtractor shows its intermediate values stay inside the
`2*w`-bit two's-complement range, so the unbounded embedding agrees with the
machine arithmetic.  `as BigDigit` truncation is `% 2 ^ w` (Euclidean `%` on
`Int` is non-negative for a positive modulus, matching two's-complement low
bits) and the arithmetic right shift `>>= BITS` is Euclidean division by
`2 ^ w` (floor division, since the divisor is positive).

Rust functions that can `assert!`-abort are embedded as `Option`-valued
functions returning `none` exactly on the fatal path.  In-place mutation of a
slice is embedded by returning the slice's new contents.
-/

namespace NumBigintSub

/-- The numeric value of a little-endian digit sequence, for digit width `w`. -/
def value (w : Nat) (xs : List Nat) : Nat :=
  xs.foldr (fun d acc => d + 2 ^ w * acc) 0

/-- All entries are valid `w`-bit digits. -/
def Bounded (w : Nat) (xs : List Nat) : Prop :=
  ∀ d ∈ xs, d < 2 ^ w

instance (w : Nat) (xs : List Nat) : Decidable (Bounded w xs) := by
  unfold Bounded; infer_instance

/-- Embedding of `sbb` (subtract with borrow): the digit-pair subtractor.
`*acc += a; *acc -= b; let lo = *acc as BigDigit; *acc >>= BITS; lo`.
Returns the produced digit together with the new accumulator value. -/
def sbb (w : Nat) (a b : Nat) (acc : Int) : Nat × Int :=
  let acc1 : Int := acc + (a : Int) - (b : Int)
  ((acc1 % (2 : Int) ^ w).toNat, acc1 / (2 : Int) ^ w)

/-- Embedding of `is_zero`: every digit is zero (vacuously true for `[]`). -/
def is_zero (x : List Nat) : Bool :=
  x.all (· == 0)

/-- Embedding of `u64::overflowing_sub` on `w`-bit digits: the wrapped
difference and the overflow flag.  For `x, y < 2 ^ w` the first component is
the two's-complement wrapping subtraction. -/
def overflowing_sub (w x y : Nat) : Nat × Bool :=
  ((x + 2 ^ w - y) % 2 ^ w, decide (x < y))

/-- Embedding of `__sub_scalar` (`a -= b` for scalar `b`): walks the digits of
`a` propagating the borrow `bw`, stopping at the first digit that absorbs the
borrow without overflow (the remaining digits are untouched).  Returns the new
contents of `a` and the `bw > 0` underflow flag. -/
def __sub_scalar (w : Nat) : List Nat → Nat → List Nat × Bool
  | [], bw => ([], decide (0 < bw))
  | ai :: rest, bw =>
    let t := overflowing_sub w ai bw
    if t.2 then
      let r := __sub_scalar w rest 1
      (t.1 :: r.1, r.2)
    else
      -- the loop breaks with `bw = 0`, so the returned `bw > 0` is `false`
      (t.1 :: rest, false)

/-- The zipped digit loop of `__sub2` / `__sub2rev`:
`for (a, b) in a_lo.iter_mut().zip(b_lo) { *a = sbb(*a, *b, &mut borrow); }`.
Stops when either list is exhausted (`zip` truncates); returns the produced
digits and the final accumulator. -/
def sbb_loop (w : Nat) : List Nat → List Nat → Int → List Nat × Int
  | a1 :: ta, b1 :: tb, acc =>
    let t := sbb w a1 b1 acc
    let r := sbb_loop w ta tb t.2
    (t.1 :: r.1, r.2)
  | _, _, acc => ([], acc)

/-- The borrow-propagation tail loop of `__sub2`:
`for a in a_hi { *a = sbb(*a, 0, &mut borrow); if borrow == 0 { break; } }`.
Digits after the early break are untouched. -/
def borrow_loop (w : Nat) : List Nat → Int → List Nat × Int
  | [], acc => ([], acc)
  | a1 :: ta, acc =>
    let t := sbb w a1 0 acc
    if t.2 == 0 then (t.1 :: ta, t.2)
    else
      let r := borrow_loop w ta t.2
      (t.1 :: r.1, r.2)

/-- Embedding of `__sub2` (reporting forward subtractor, `a -= b`):
returns the new contents of `a` and the `borrow != 0` flag.
Mirrors the source: a scalar fast path for `b.len() == 1`, a fast path for
all-zero `a`, then the zipped prefix loop over `min(a.len(), b.len())` digits
followed by borrow propagation through `a`'s tail.  (As in the source, the
digits of `b` beyond the common prefix — `b_hi` — are never read.) -/
def __sub2 (w : Nat) (a b : List Nat) : List Nat × Bool :=
  if b.length == 1 then __sub_scalar w a (b.headD 0)
  else if is_zero a then (a, !is_zero b)
  else
    let len := min a.length b.length
    let t := sbb_loop w (a.take len) (b.take len) 0
    let r := if t.2 != 0 then borrow_loop w (a.drop len) t.2 else (a.drop len, t.2)
    (t.1 ++ r.1, r.2 != 0)

/-- Embedding of `sub2` (strict forward subtractor, `a -= b`):
`assert!(!borrow, ...)` aborts on underflow, embedded as `none`. -/
def sub2 (w : Nat) (a b : List Nat) : Option (List Nat) :=
  let r := __sub2 w a b
  if r.2 then none else some r.1

/-- Embedding of `__sub2rev` (`b := a - b` digit-wise, for the `SubRev` impl):
the zipped loop writes into `b`; digits of `b` beyond `a`'s length (none when
the lengths are equal, as the `debug_assert!` expects) are untouched. -/
def __sub2rev (w : Nat) (a b : List Nat) : List Nat × Bool :=
  let t := sbb_loop w a b 0
  (t.1 ++ b.drop a.length, t.2 != 0)

/-- Embedding of `sub2rev` (tolerant reverse subtractor, `b := a - b`):
splits at `min(a.len(), b.len())`, runs `__sub2rev` on the prefixes, then
`assert!(a_hi.is_empty())` and
`assert!(!borrow && b_hi.iter().all(|x| *x == 0), ...)`; an assertion failure
is embedded as `none`, success returns `b`'s new contents. -/
def sub2rev (w : Nat) (a b : List Nat) : Option (List Nat) :=
  let len := min a.length b.length
  let aHi := a.drop len
  let bHi := b.drop len
  let t := __sub2rev w (a.take len) (b.take len)
  if aHi.isEmpty then
    if !t.2 && bHi.all (· == 0) then some (t.1 ++ bHi) else none
  else none

/-- Embedding of `bigint::Sign`. -/
inductive Sign
  | Minus
  | NoSign
  | Plus
deriving DecidableEq, Repr

/-- The slice-trimming normalization at the top of `sub_sign`:
`&a[..a.iter().rposition(|&x| x != 0).map_or(0, |i| i + 1)]`, i.e. drop the
maximal run of most-significant zero digits. -/
def normalize (xs : List Nat) : List Nat :=
  (xs.reverse.dropWhile (· == 0)).reverse

/-- A magnitude with no trailing (most-significant) zero digit. -/
def Normalized (xs : List Nat) : Prop :=
  xs.getLast? ≠ some 0

/-- Lexicographic comparison on equal-length big-endian digit lists
(most-significant digit first). -/
def cmpBE : List Nat → List Nat → Ordering
  | x :: xs, y :: ys =>
    match compare x y with
    | Ordering.eq => cmpBE xs ys
    | o => o
  | _, _ => Ordering.eq

/-- Zero-pad a little-endian digit list at the most-significant end to
length `n`. -/
def padTo (n : Nat) (xs : List Nat) : List Nat :=
  xs ++ List.replicate (n - xs.length) 0

/-- Modelled from the spec: `cmp_slice`, the external digit-sequence
comparison routine (its code is not under `src/`), "performing
most-significant-first lexicographic comparison with implicit handling of
differing lengths (treated as zero-padded)". -/
def cmp_slice (a b : List Nat) : Ordering :=
  cmpBE (padTo (max a.length b.length) a).reverse (padTo (max a.length b.length) b).reverse

/-- Modelled from the spec: `BigUint::new_native`, the external
magnitude-construction entry point (its code is not under `src/`) that wraps a
raw digit sequence into the library's public integer type; per the spec the
sign-aware subtractor "always returns a normalized magnitude", so the wrapper
normalizes its digit sequence. -/
def new_native (xs : List Nat) : List Nat :=
  normalize xs

/-- Embedding of `sub_sign`: normalize both operands, compare, and subtract
the smaller from a copy of the larger (`Zero::zero()` is the empty
magnitude).  `none` would mean the internal `sub2` assertion fired. -/
def sub_sign (w : Nat) (a b : List Nat) : Option (Sign × List Nat) :=
  let a' := normalize a
  let b' := normalize b
  match cmp_slice a' b' with
  | Ordering.gt => (sub2 w a' b').map fun m => (Sign.Plus, new_native m)
  | Ordering.lt => (sub2 w b' a').map fun m => (Sign.Minus, new_native m)
  | Ordering.eq => some (Sign.NoSign, [])

/-- The signed value of a `(Sign, magnitude-value)` pair. -/
def signedValue (s : Sign) (v : Nat) : Int :=
  match s with
  | Sign.Plus => (v : Int)
  | Sign.Minus => -(v : Int)
  | Sign.NoSign => 0

end NumBigintSub

namespace NumBigintSub

/-! ### Basic facts about `value`, `Bounded`, `is_zero` -/

theorem value_nil (w : Nat) : value w [] = 0 := rfl

theorem value_cons (w d : Nat) (xs : List Nat) :
    value w (d :: xs) = d + 2 ^ w * value w xs := rfl

theorem value_append (w : Nat) (xs ys : List Nat) :
    value w (xs ++ ys) = value w xs + 2 ^ (w * xs.length) * value w ys := by
  induction xs with
  | nil => simp [value_nil, value_cons]
  | cons x t ih =>
    simp only [List.cons_append, value_cons, ih, List.length_cons]
    rw [Nat.mul_succ, pow_add]
    ring

theorem value_lt (w : Nat) (xs : List Nat) (h : Bounded w xs) :
    value w xs < 2 ^ (w * xs.length) := by
  induction xs with
  | nil => simp [value_nil]
  | cons x t ih =>
    have hx : x < 2 ^ w := h x (by simp)
    have ht : value w t < 2 ^ (w * t.length) := ih (fun d hd => h d (by simp [hd]))
    simp only [value_cons, List.length_cons]
    rw [Nat.mul_succ, pow_add]
    calc x + 2 ^ w * value w t < 2 ^ w + 2 ^ w * value w t := by omega
    _ = 2 ^ w * (value w t + 1) := by ring
    _ ≤ 2 ^ w * 2 ^ (w * t.length) := Nat.mul_le_mul_left _ (by omega)
    _ = 2 ^ (w * t.length) * 2 ^ w := by ring

theorem value_eq_zero (w : Nat) (xs : List Nat) :
    value w xs = 0 ↔ ∀ d ∈ xs, d = 0 := by
  induction xs with
  | nil => simp [value_nil]
  | cons x t ih =>
    have h2 : 0 < 2 ^ w := pow_pos (by norm_num) w
    simp only [value_cons, List.mem_cons]
    constructor
    · intro h
      have hx : x = 0 := by omega
      have hv : 2 ^ w * value w t = 0 := by omega
      have : value w t = 0 := by
        rcases Nat.mul_eq_zero.mp hv with h' | h'
        · omega
        · exact h'
      intro d hd
      rcases hd with rfl | hd
      · exact hx
      · exact (ih.mp this) d hd
    · intro h
      have hx : x = 0 := h x (Or.inl rfl)
      have hv : value w t = 0 := ih.mpr (fun d hd => h d (Or.inr hd))
      simp [hx, hv]

theorem is_zero_iff (xs : List Nat) : is_zero xs = true ↔ ∀ d ∈ xs, d = 0 := by
  simp [is_zero, List.all_eq_true]

theorem is_zero_iff_value (w : Nat) (xs : List Nat) :
    is_zero xs = true ↔ value w xs = 0 := by
  rw [is_zero_iff, value_eq_zero]

theorem value_replicate_zero (w n : Nat) : value w (List.replicate n 0) = 0 := by
  rw [value_eq_zero]
  intro d hd
  exact List.eq_of_mem_replicate hd

/-! ### The digit-pair subtractor `sbb` -/

theorem ediv_pow_cases (w : Nat) (x : Int) (hlo : -2 ^ w ≤ x) (hhi : x < 2 ^ w) :
    x / (2 : Int) ^ w = if 0 ≤ x then 0 else -1 := by
  have hP : (0 : Int) < 2 ^ w := by positivity
  by_cases h0 : 0 ≤ x
  · simp [h0, Int.ediv_eq_zero_of_lt h0 hhi]
  · simp only [h0, if_false]
    push_neg at h0
    have heq := Int.ediv_add_emod x ((2 : Int) ^ w)
    have hr0 := Int.emod_nonneg x hP.ne'
    have hr1 := Int.emod_lt_of_pos x hP
    set q := x / (2 : Int) ^ w with hq
    set r := x % (2 : Int) ^ w with hr
    have hq1 : q < 1 := by
      have hlt : (2 : Int) ^ w * q < 2 ^ w * 1 := by linarith
      exact lt_of_mul_lt_mul_left hlt hP.le
    have hq2 : -2 < q := by
      have hlt : (2 : Int) ^ w * (-2) < 2 ^ w * q := by linarith
      exact lt_of_mul_lt_mul_left hlt hP.le
    have hq0 : q ≠ 0 := by
      intro h
      rw [h, mul_zero, zero_add] at heq
      linarith
    omega

theorem sbb_decomp (w a b : Nat) (acc : Int) :
    ((sbb w a b acc).1 : Int) + 2 ^ w * (sbb w a b acc).2 = acc + a - b := by
  unfold sbb
  simp only
  have hP : (0 : Int) < 2 ^ w := by positivity
  have hmod := Int.emod_nonneg (acc + a - b) hP.ne'
  rw [Int.toNat_of_nonneg hmod]
  have hde := Int.ediv_add_emod (acc + a - b) ((2 : Int) ^ w)
  linarith

theorem sbb_fst_lt (w a b : Nat) (acc : Int) : (sbb w a b acc).1 < 2 ^ w := by
  unfold sbb
  simp only
  have hP : (0 : Int) < 2 ^ w := by positivity
  have h1 := Int.emod_nonneg (acc + a - b) hP.ne'
  have h2 := Int.emod_lt_of_pos (acc + a - b) hP
  rw [Int.toNat_lt h1]
  push_cast
  exact h2

theorem sbb_snd (w a b : Nat) (acc : Int) (ha : a < 2 ^ w) (hb : b < 2 ^ w)
    (hacc : acc = 0 ∨ acc = -1) :
    (sbb w a b acc).2 = if 0 ≤ acc + (a : Int) - b then 0 else -1 := by
  unfold sbb
  simp only
  have hA : (a : Int) < 2 ^ w := by exact_mod_cast ha
  have hB : (b : Int) < 2 ^ w := by exact_mod_cast hb
  have ha0 : (0 : Int) ≤ (a : Int) := Int.ofNat_nonneg a
  have hb0 : (0 : Int) ≤ (b : Int) := Int.ofNat_nonneg b
  apply ediv_pow_cases
  · rcases hacc with h | h <;> subst h <;> linarith
  · rcases hacc with h | h <;> subst h <;> linarith

theorem sbb_mem_cases (w a b : Nat) (acc : Int) (ha : a < 2 ^ w) (hb : b < 2 ^ w)
    (hacc : acc = 0 ∨ acc = -1) :
    (sbb w a b acc).2 = 0 ∨ (sbb w a b acc).2 = -1 := by
  rw [sbb_snd w a b acc ha hb hacc]
  split <;> simp

end NumBigintSub

namespace NumBigintSub

/-! ### The zipped digit loop -/

theorem sbb_loop_length (w : Nat) (a : List Nat) :
    ∀ (b : List Nat) (acc : Int),
      (sbb_loop w a b acc).1.length = min a.length b.length := by
  induction a with
  | nil => intro b acc; cases b <;> simp [sbb_loop]
  | cons a1 ta ih =>
    intro b acc
    cases b with
    | nil => simp [sbb_loop]
    | cons b1 tb =>
      simp only [sbb_loop, List.length_cons, ih]
      omega

theorem sbb_loop_decomp (w : Nat) (a : List Nat) :
    ∀ (b : List Nat) (acc : Int), a.length = b.length →
      (value w (sbb_loop w a b acc).1 : Int)
          + 2 ^ (w * a.length) * (sbb_loop w a b acc).2
        = acc + value w a - value w b := by
  induction a with
  | nil =>
    intro b acc hlen
    cases b with
    | nil => simp [sbb_loop, value_nil]
    | cons b1 tb => simp at hlen
  | cons a1 ta ih =>
    intro b acc hlen
    cases b with
    | nil => simp at hlen
    | cons b1 tb =>
      have hl : ta.length = tb.length := by simpa using hlen
      have h1 := sbb_decomp w a1 b1 acc
      have h2 := ih tb (sbb w a1 b1 acc).2 hl
      simp only [sbb_loop, value_cons, List.length_cons]
      rw [Nat.mul_succ, pow_add]
      push_cast
      push_cast at h2
      linear_combination h1 + (2 : Int) ^ w * h2

theorem sbb_loop_bounded (w : Nat) (a : List Nat) :
    ∀ (b : List Nat) (acc : Int), Bounded w (sbb_loop w a b acc).1 := by
  induction a with
  | nil => intro b acc; cases b <;> intro d hd <;> simp [sbb_loop] at hd
  | cons a1 ta ih =>
    intro b acc
    cases b with
    | nil => intro d hd; simp [sbb_loop] at hd
    | cons b1 tb =>
      intro d hd
      simp only [sbb_loop, List.mem_cons] at hd
      rcases hd with rfl | hd
      · exact sbb_fst_lt w a1 b1 acc
      · exact ih tb (sbb w a1 b1 acc).2 d hd

theorem sbb_loop_acc (w : Nat) (a : List Nat) :
    ∀ (b : List Nat) (acc : Int), Bounded w a → Bounded w b →
      acc = 0 ∨ acc = -1 →
      (sbb_loop w a b acc).2 = 0 ∨ (sbb_loop w a b acc).2 = -1 := by
  induction a with
  | nil => intro b acc _ _ hacc; cases b <;> simpa [sbb_loop] using hacc
  | cons a1 ta ih =>
    intro b acc ha hb hacc
    cases b with
    | nil => simpa [sbb_loop] using hacc
    | cons b1 tb =>
      have h1 : a1 < 2 ^ w := ha a1 (by simp)
      have h2 : b1 < 2 ^ w := hb b1 (by simp)
      have hmem := sbb_mem_cases w a1 b1 acc h1 h2 hacc
      simp only [sbb_loop]
      exact ih tb (sbb w a1 b1 acc).2 (fun d hd => ha d (by simp [hd]))
        (fun d hd => hb d (by simp [hd])) hmem

/-! ### The borrow-propagation tail loop -/

theorem borrow_loop_length (w : Nat) (a : List Nat) :
    ∀ acc : Int, (borrow_loop w a acc).1.length = a.length := by
  induction a with
  | nil => intro acc; simp [borrow_loop]
  | cons a1 ta ih =>
    intro acc
    simp only [borrow_loop]
    split
    · simp
    · simp [ih]

theorem borrow_loop_decomp (w : Nat) (a : List Nat) :
    ∀ acc : Int,
      (value w (borrow_loop w a acc).1 : Int)
          + 2 ^ (w * a.length) * (borrow_loop w a acc).2
        = acc + value w a := by
  induction a with
  | nil => intro acc; simp [borrow_loop, value_nil]
  | cons a1 ta ih =>
    intro acc
    have h1 := sbb_decomp w a1 0 acc
    simp only [borrow_loop]
    split
    · next hz =>
      have hz' : (sbb w a1 0 acc).2 = 0 := by exact_mod_cast beq_iff_eq.mp hz
      rw [hz'] at h1
      simp only [value_cons, List.length_cons]
      rw [Nat.mul_succ, pow_add]
      push_cast
      rw [hz']
      linear_combination h1
    · have h2 := ih (sbb w a1 0 acc).2
      simp only [value_cons, List.length_cons]
      rw [Nat.mul_succ, pow_add]
      push_cast
      push_cast at h2
      linear_combination h1 + (2 : Int) ^ w * h2

theorem borrow_loop_bounded (w : Nat) (a : List Nat) :
    ∀ acc : Int, Bounded w a → Bounded w (borrow_loop w a acc).1 := by
  induction a with
  | nil => intro acc _ d hd; simp [borrow_loop] at hd
  | cons a1 ta ih =>
    intro acc ha d hd
    simp only [borrow_loop] at hd
    split at hd
    · simp only [List.mem_cons] at hd
      rcases hd with rfl | hd
      · exact sbb_fst_lt w a1 0 acc
      · exact ha d (by simp [hd])
    · simp only [List.mem_cons] at hd
      rcases hd with rfl | hd
      · exact sbb_fst_lt w a1 0 acc
      · exact ih (sbb w a1 0 acc).2 (fun e he => ha e (by simp [he])) d hd

theorem borrow_loop_acc (w : Nat) (a : List Nat) :
    ∀ acc : Int, Bounded w a → acc = 0 ∨ acc = -1 →
      (borrow_loop w a acc).2 = 0 ∨ (borrow_loop w a acc).2 = -1 := by
  induction a with
  | nil => intro acc _ hacc; simpa [borrow_loop] using hacc
  | cons a1 ta ih =>
    intro acc ha hacc
    have h1 : a1 < 2 ^ w := ha a1 (by simp)
    have h0 : (0 : Nat) < 2 ^ w := pow_pos (by norm_num) w
    have hmem := sbb_mem_cases w a1 0 acc h1 h0 hacc
    simp only [borrow_loop]
    split
    · next hz => left; exact_mod_cast beq_iff_eq.mp hz
    · exact ih (sbb w a1 0 acc).2 (fun e he => ha e (by simp [he])) hmem

end NumBigintSub

namespace NumBigintSub

/-! ### The scalar subtractor -/

theorem sub_scalar_spec (w : Nat) (hw : 0 < w) (a : List Nat) :
    ∀ bw : Nat, Bounded w a → bw < 2 ^ w →
      (__sub_scalar w a bw).1.length = a.length ∧
      Bounded w (__sub_scalar w a bw).1 ∧
      ((__sub_scalar w a bw).2 = decide (value w a < bw)) ∧
      (bw ≤ 1 ∨ a ≠ [] →
        (value w (__sub_scalar w a bw).1 : Int)
          = value w a - bw
            + if (__sub_scalar w a bw).2 then (2 : Int) ^ (w * a.length) else 0) := by
  induction a with
  | nil =>
    intro bw _ _
    refine ⟨rfl, fun d hd => absurd hd (by simp [__sub_scalar]), ?_, ?_⟩
    · simp [__sub_scalar, value_nil]
    · rintro (hg | hg)
      · interval_cases bw <;> simp [__sub_scalar, value_nil, Nat.mul_zero]
      · simp at hg
  | cons ai rest ih =>
    intro bw ha hbw
    have hai : ai < 2 ^ w := ha ai (by simp)
    have harest : Bounded w rest := fun d hd => ha d (by simp [hd])
    by_cases hov : ai < bw
    · -- the digit overflows: a borrow of 1 cascades into the tail
      have h1 : 1 < 2 ^ w := by
        calc 1 < 2 ^ 1 := by norm_num
        _ ≤ 2 ^ w := Nat.pow_le_pow_right (by norm_num) hw
      obtain ⟨ihlen, ihbdd, ihflag, ihval⟩ := ih 1 harest h1
      have t2 : (overflowing_sub w ai bw).2 = true := by
        simp [overflowing_sub, hov]
      have ht1 : (overflowing_sub w ai bw).1 = ai + 2 ^ w - bw := by
        have hlt : ai + 2 ^ w - bw < 2 ^ w := by omega
        simp [overflowing_sub, Nat.mod_eq_of_lt hlt]
      have hred : __sub_scalar w (ai :: rest) bw
          = ((overflowing_sub w ai bw).1 :: (__sub_scalar w rest 1).1,
             (__sub_scalar w rest 1).2) := by
        simp [__sub_scalar, t2]
      refine ⟨by simp [hred, ihlen], ?_, ?_, ?_⟩
      · intro d hd
        rw [hred] at hd
        simp only [List.mem_cons] at hd
        rcases hd with rfl | hd
        · rw [ht1]; omega
        · exact ihbdd d hd
      · rw [hred]
        simp only
        rw [ihflag, decide_eq_decide]
        simp only [value_cons]
        constructor
        · intro h
          have hz : value w rest = 0 := by omega
          simp only [hz, Nat.mul_zero]
          omega
        · intro h
          by_contra hge
          have h1' : 1 ≤ value w rest := by omega
          have hmul : 2 ^ w ≤ 2 ^ w * value w rest :=
            Nat.le_mul_of_pos_right _ (by omega)
          omega
      · intro _
        rw [hred]
        simp only [value_cons, List.length_cons]
        have hvr := ihval (Or.inl le_rfl)
        rw [ht1, Nat.mul_succ, pow_add]
        have hsub : bw ≤ ai + 2 ^ w := by omega
        have hc : ((ai + 2 ^ w - bw : Nat) : Int) = (ai : Int) + 2 ^ w - bw := by
          rw [Nat.cast_sub hsub]
          push_cast
          ring
        push_cast
        rw [hc]
        cases hflag : (__sub_scalar w rest 1).2 with
        | false =>
          rw [hflag] at hvr
          simp only [if_false, Bool.false_eq_true] at hvr ⊢
          push_cast at hvr
          linear_combination (2 : Int) ^ w * hvr
        | true =>
          rw [hflag] at hvr
          simp only [if_true] at hvr ⊢
          push_cast at hvr
          linear_combination (2 : Int) ^ w * hvr
    · -- no overflow: the loop breaks immediately, tail untouched
      have hble : bw ≤ ai := by omega
      have t2 : (overflowing_sub w ai bw).2 = false := by
        simp [overflowing_sub, hov]
      have ht1 : (overflowing_sub w ai bw).1 = ai - bw := by
        have h1 : ai + 2 ^ w - bw = (ai - bw) + 2 ^ w := by omega
        simp only [overflowing_sub]
        rw [h1, Nat.add_mod_right, Nat.mod_eq_of_lt (by omega)]
      have hred : __sub_scalar w (ai :: rest) bw
          = ((overflowing_sub w ai bw).1 :: rest, false) := by
        simp [__sub_scalar, t2]
      refine ⟨by simp [hred], ?_, ?_, ?_⟩
      · intro d hd
        rw [hred] at hd
        simp only [List.mem_cons] at hd
        rcases hd with rfl | hd
        · rw [ht1]; omega
        · exact harest d hd
      · rw [hred]
        simp only
        have hnlt : ¬ value w (ai :: rest) < bw := by
          simp only [value_cons]
          have := Nat.zero_le (2 ^ w * value w rest)
          omega
        simp [hnlt]
      · intro _
        rw [hred]
        simp only [value_cons, if_false, Bool.false_eq_true]
        have hc : ((ai - bw : Nat) : Int) = (ai : Int) - bw := by omega
        rw [ht1]
        push_cast
        rw [hc]
        ring

end NumBigintSub

namespace NumBigintSub

/-! ### The reporting forward subtractor -/

theorem sub2_core (w : Nat) (hw : 0 < w) (a b : List Nat)
    (ha : Bounded w a) (hb : Bounded w b) (hge : value w b ≤ value w a) :
    (__sub2 w a b).2 = false ∧
    value w (__sub2 w a b).1 = value w a - value w b ∧
    (__sub2 w a b).1.length = a.length ∧
    Bounded w (__sub2 w a b).1 := by
  by_cases hb1 : b.length = 1
  · -- scalar fast path
    obtain ⟨b0, rfl⟩ : ∃ b0, b = [b0] := by
      cases b with
      | nil => simp at hb1
      | cons x t =>
        cases t with
        | nil => exact ⟨x, rfl⟩
        | cons y tt => simp at hb1
    have hb0 : b0 < 2 ^ w := hb b0 (by simp)
    have hvb : value w [b0] = b0 := by simp [value_cons, value_nil]
    have hred : __sub2 w a [b0] = __sub_scalar w a b0 := by
      simp [__sub2]
    obtain ⟨hlen, hbdd, hflag, hval⟩ := sub_scalar_spec w hw a b0 ha hb0
    have hgeb : b0 ≤ value w a := by rw [hvb] at hge; exact hge
    have hflag' : (__sub_scalar w a b0).2 = false := by
      rw [hflag, decide_eq_false_iff_not]; omega
    have hguard : b0 ≤ 1 ∨ a ≠ [] := by
      cases a with
      | nil =>
        left
        have hva : value w ([] : List Nat) = 0 := rfl
        omega
      | cons x t => right; simp
    have hval' := hval hguard
    rw [hflag'] at hval'
    simp only [Bool.false_eq_true, if_false] at hval'
    rw [hred, hvb]
    refine ⟨hflag', ?_, hlen, hbdd⟩
    omega
  · by_cases hza : is_zero a = true
    · -- all-zero `a` fast path
      have hva : value w a = 0 := (is_zero_iff_value w a).mp hza
      have hvb : value w b = 0 := by omega
      have hzb : is_zero b = true := (is_zero_iff_value w b).mpr hvb
      have hb1' : (b.length == 1) = false := by simp [hb1]
      have hred : __sub2 w a b = (a, !is_zero b) := by
        simp only [__sub2, hb1', Bool.false_eq_true, if_false, hza, if_true]
      rw [hred, hzb]
      refine ⟨rfl, ?_, rfl, ha⟩
      show value w a = value w a - value w b
      omega
    · -- general path
      have hb1' : (b.length == 1) = false := by simp [hb1]
      have hza' : is_zero a = false := by simpa using hza
      set n := min a.length b.length with hn
      set t := sbb_loop w (a.take n) (b.take n) 0 with ht
      have hnla : n ≤ a.length := by omega
      have hnlb : n ≤ b.length := by omega
      have hlenLo : (a.take n).length = n := by
        rw [List.length_take]; omega
      have hlenbLo : (b.take n).length = n := by
        rw [List.length_take]; omega
      have tlen : t.1.length = n := by
        rw [ht, sbb_loop_length, hlenLo, hlenbLo, Nat.min_self]
      have tbdd : Bounded w t.1 := by
        rw [ht]; exact sbb_loop_bounded w _ _ 0
      have tdec : (value w t.1 : Int) + 2 ^ (w * n) * t.2
          = value w (a.take n) - value w (b.take n) := by
        have h := sbb_loop_decomp w (a.take n) (b.take n) 0 (by rw [hlenLo, hlenbLo])
        rw [hlenLo] at h
        rw [ht]
        linarith [h]
      have tacc : t.2 = 0 ∨ t.2 = -1 := by
        rw [ht]
        exact sbb_loop_acc w _ _ 0 (fun d hd => ha d (List.take_subset n a hd))
          (fun d hd => hb d (List.take_subset n b hd)) (Or.inl rfl)
      have tval_lt : (value w t.1 : Int) < 2 ^ (w * n) := by
        have h := value_lt w t.1 tbdd
        rw [tlen] at h
        exact_mod_cast h
      have va : value w a = value w (a.take n) + 2 ^ (w * n) * value w (a.drop n) := by
        conv_lhs => rw [← List.take_append_drop n a]
        rw [value_append, hlenLo]
      have vbdec : value w b = value w (b.take n) + 2 ^ (w * n) * value w (b.drop n) := by
        conv_lhs => rw [← List.take_append_drop n b]
        rw [value_append, hlenbLo]
      have hvalt : value w a < 2 ^ (w * a.length) := value_lt w a ha
      have hbHi : value w (b.drop n) = 0 := by
        by_contra hne
        have h1 : 1 ≤ value w (b.drop n) := Nat.one_le_iff_ne_zero.mpr hne
        have h2 : n < b.length := by
          by_contra hle
          push_neg at hle
          rw [List.drop_eq_nil_of_le hle] at h1
          simp [value_nil] at h1
        have hna : n = a.length := by omega
        have h3 : 2 ^ (w * n) ≤ 2 ^ (w * n) * value w (b.drop n) :=
          Nat.le_mul_of_pos_right _ (by omega)
        have h4 : 2 ^ (w * n) * value w (b.drop n) ≤ value w b := by
          rw [vbdec]; exact Nat.le_add_left _ _
        have h5 : value w a < 2 ^ (w * n) := by rw [hna]; exact hvalt
        have h6 := le_trans h3 h4
        omega
      have vbNat : value w b = value w (b.take n) := by
        rw [vbdec, hbHi, Nat.mul_zero, Nat.add_zero]
      have vaI : (value w a : Int)
          = value w (a.take n) + 2 ^ (w * n) * value w (a.drop n) := by
        exact_mod_cast va
      have vbI : (value w b : Int) = value w (b.take n) := by
        exact_mod_cast vbNat
      have habdd : Bounded w (a.drop n) := fun d hd => ha d (List.drop_subset n a hd)
      rcases tacc with h0 | h1
      · -- the prefix leaves no borrow
        have hcase : __sub2 w a b = (t.1 ++ a.drop n, false) := by
          simp only [__sub2, hb1', Bool.false_eq_true, if_false, hza']
          rw [← hn, ← ht, h0]
          simp
        rw [hcase]
        have hInt : (value w (t.1 ++ a.drop n) : Int) = (value w a : Int) - value w b := by
          rw [value_append, tlen]
          push_cast
          rw [h0] at tdec
          linarith [tdec, vaI, vbI]
        refine ⟨rfl, ?_, ?_, ?_⟩
        · show value w (t.1 ++ a.drop n) = value w a - value w b
          omega
        · show (t.1 ++ a.drop n).length = a.length
          rw [List.length_append, tlen, List.length_drop]; omega
        · intro d hd
          rcases List.mem_append.mp hd with hd | hd
          · exact tbdd d hd
          · exact habdd d hd
      · -- the prefix leaves a borrow that must be absorbed by `a`'s tail
        have hneg : (((-1 : Int)) != 0) = true := by decide
        have hpre : (value w t.1 : Int)
            = value w (a.take n) - value w (b.take n) + 2 ^ (w * n) := by
          rw [h1] at tdec; linarith [tdec]
        have rdec := borrow_loop_decomp w (a.drop n) (-1)
        have racc := borrow_loop_acc w (a.drop n) (-1) habdd (Or.inr rfl)
        have rlen := borrow_loop_length w (a.drop n) (-1)
        have rbdd := borrow_loop_bounded w (a.drop n) (-1) habdd
        rcases racc with r0 | r1
        · have hr1eq : (value w (borrow_loop w (a.drop n) (-1)).1 : Int)
              = -1 + value w (a.drop n) := by
            rw [r0] at rdec; linarith [rdec]
          have hcase : __sub2 w a b = (t.1 ++ (borrow_loop w (a.drop n) (-1)).1, false) := by
            simp only [__sub2, hb1', Bool.false_eq_true, if_false, hza']
            rw [← hn, ← ht, h1]
            simp only [hneg, if_true, r0]
            simp
          rw [hcase]
          have hInt : (value w (t.1 ++ (borrow_loop w (a.drop n) (-1)).1) : Int)
              = (value w a : Int) - value w b := by
            rw [value_append, tlen]
            push_cast
            linear_combination hpre + ((2 : Int) ^ (w * n)) * hr1eq - vaI + vbI
          refine ⟨rfl, ?_, ?_, ?_⟩
          · show value w (t.1 ++ (borrow_loop w (a.drop n) (-1)).1) = value w a - value w b
            omega
          · show (t.1 ++ (borrow_loop w (a.drop n) (-1)).1).length = a.length
            rw [List.length_append, tlen, rlen, List.length_drop]; omega
          · intro d hd
            rcases List.mem_append.mp hd with hd | hd
            · exact tbdd d hd
            · exact rbdd d hd
        · -- a surviving borrow would mean `value a < value b`: impossible
          exfalso
          have hr1eq : (value w (borrow_loop w (a.drop n) (-1)).1 : Int)
              = -1 + value w (a.drop n) + 2 ^ (w * (a.drop n).length) := by
            rw [r1] at rdec; linarith [rdec]
          have hbound : (value w (borrow_loop w (a.drop n) (-1)).1 : Int)
              < 2 ^ (w * (a.drop n).length) := by
            have h := value_lt w _ rbdd
            rw [rlen] at h
            exact_mod_cast h
          have h6 : value w (a.drop n) = 0 := by
            have h7 : (value w (a.drop n) : Int) < 1 := by linarith
            omega
          have h8 : (value w (a.take n) : Int) < value w (b.take n) := by
            linarith [hpre, tval_lt]
          rw [h6, Nat.mul_zero, Nat.add_zero] at va
          have h9 : value w (a.take n) < value w (b.take n) := by exact_mod_cast h8
          omega

end NumBigintSub

namespace NumBigintSub

/-! ### Normalization -/

theorem normalize_decomp (xs : List Nat) :
    xs = normalize xs ++ (xs.reverse.takeWhile (· == 0)).reverse := by
  conv_lhs => rw [← List.reverse_reverse xs,
    ← List.takeWhile_append_dropWhile (· == 0) xs.reverse]
  rw [List.reverse_append]
  rfl

theorem value_normalize (w : Nat) (xs : List Nat) :
    value w (normalize xs) = value w xs := by
  conv_rhs => rw [normalize_decomp xs]
  rw [value_append]
  have hz : value w (xs.reverse.takeWhile (· == 0)).reverse = 0 := by
    rw [value_eq_zero]
    intro d hd
    have hmem := List.mem_reverse.mp hd
    have := List.mem_takeWhile_imp hmem
    simpa using this
  rw [hz, Nat.mul_zero, Nat.add_zero]

theorem normalize_bounded (w : Nat) (xs : List Nat) (h : Bounded w xs) :
    Bounded w (normalize xs) := by
  intro d hd
  apply h
  have h1 := List.mem_reverse.mp hd
  have h2 := (List.dropWhile_sublist (· == 0) (l := xs.reverse)).subset h1
  exact List.mem_reverse.mp h2

theorem dropWhile_head_false {α : Type} (p : α → Bool) :
    ∀ (l : List α) (x : α), (l.dropWhile p).head? = some x → p x = false := by
  intro l
  induction l with
  | nil => intro x hx; simp [List.dropWhile] at hx
  | cons a t ih =>
    intro x hx
    by_cases hp : p a
    · rw [List.dropWhile_cons_of_pos hp] at hx
      exact ih x hx
    · rw [List.dropWhile_cons_of_neg hp] at hx
      simp only [List.head?_cons, Option.some.injEq] at hx
      subst hx
      exact Bool.eq_false_iff.mpr hp

theorem normalize_normalized (xs : List Nat) : Normalized (normalize xs) := by
  unfold Normalized normalize
  rw [List.getLast?_reverse]
  intro hcontra
  have := dropWhile_head_false (· == 0) xs.reverse 0 hcontra
  simp at this

theorem normalized_nil : Normalized ([] : List Nat) := by
  simp [Normalized]

/-! ### Comparison -/

theorem cmpBE_spec (w : Nat) : ∀ (u v : List Nat), u.length = v.length →
    Bounded w u → Bounded w v →
    (cmpBE u v = Ordering.eq → value w u.reverse = value w v.reverse) ∧
    (cmpBE u v = Ordering.lt → value w u.reverse < value w v.reverse) ∧
    (cmpBE u v = Ordering.gt → value w v.reverse < value w u.reverse) := by
  intro u
  induction u with
  | nil =>
    intro v hlen _ _
    cases v with
    | nil =>
      refine ⟨fun _ => rfl, fun h => ?_, fun h => ?_⟩ <;> simp [cmpBE] at h
    | cons y ys => simp at hlen
  | cons x xs ih =>
    intro v hlen hu hv
    cases v with
    | nil => simp at hlen
    | cons y ys =>
      have hl : xs.length = ys.length := by simpa using hlen
      have hx : x < 2 ^ w := hu x (by simp)
      have hy : y < 2 ^ w := hv y (by simp)
      have hxs : Bounded w xs := fun d hd => hu d (by simp [hd])
      have hys : Bounded w ys := fun d hd => hv d (by simp [hd])
      obtain ⟨ihe, ihl, ihg⟩ := ih ys hl hxs hys
      have hvx : value w (x :: xs).reverse
          = value w xs.reverse + 2 ^ (w * xs.length) * x := by
        rw [List.reverse_cons, value_append, List.length_reverse]
        have : value w [x] = x := by simp [value_cons, value_nil]
        rw [this]
      have hvy : value w (y :: ys).reverse
          = value w ys.reverse + 2 ^ (w * xs.length) * y := by
        rw [List.reverse_cons, value_append, List.length_reverse, ← hl]
        have : value w [y] = y := by simp [value_cons, value_nil]
        rw [this]
      have hbx : value w xs.reverse < 2 ^ (w * xs.length) := by
        have h := value_lt w xs.reverse (fun d hd => hxs d (List.mem_reverse.mp hd))
        rwa [List.length_reverse] at h
      have hby : value w ys.reverse < 2 ^ (w * xs.length) := by
        have h := value_lt w ys.reverse (fun d hd => hys d (List.mem_reverse.mp hd))
        rwa [List.length_reverse, ← hl] at h
      rcases h : compare x y with _ | _ | _
      · -- x < y
        have hxy : x < y := Nat.compare_eq_lt.mp h
        have hred : cmpBE (x :: xs) (y :: ys) = Ordering.lt := by
          simp [cmpBE, h]
        rw [hred]
        refine ⟨fun hc => by simp at hc, fun _ => ?_, fun hc => by simp at hc⟩
        rw [hvx, hvy]
        calc value w xs.reverse + 2 ^ (w * xs.length) * x
            < 2 ^ (w * xs.length) + 2 ^ (w * xs.length) * x := by omega
        _ = 2 ^ (w * xs.length) * (x + 1) := by ring
        _ ≤ 2 ^ (w * xs.length) * y := Nat.mul_le_mul_left _ (by omega)
        _ ≤ value w ys.reverse + 2 ^ (w * xs.length) * y := Nat.le_add_left _ _
      · -- x = y
        have hxy : x = y := Nat.compare_eq_eq.mp h
        subst hxy
        have hred : cmpBE (x :: xs) (x :: ys) = cmpBE xs ys := by
          simp [cmpBE, h]
        rw [hred, hvx, hvy]
        refine ⟨fun hc => ?_, fun hc => ?_, fun hc => ?_⟩
        · have := ihe hc; omega
        · have := ihl hc; omega
        · have := ihg hc; omega
      · -- y < x
        have hxy : y < x := Nat.compare_eq_gt.mp h
        have hred : cmpBE (x :: xs) (y :: ys) = Ordering.gt := by
          simp [cmpBE, h]
        rw [hred]
        refine ⟨fun hc => by simp at hc, fun hc => by simp at hc, fun _ => ?_⟩
        rw [hvx, hvy]
        calc value w ys.reverse + 2 ^ (w * xs.length) * y
            < 2 ^ (w * xs.length) + 2 ^ (w * xs.length) * y := by omega
        _ = 2 ^ (w * xs.length) * (y + 1) := by ring
        _ ≤ 2 ^ (w * xs.length) * x := Nat.mul_le_mul_left _ (by omega)
        _ ≤ value w xs.reverse + 2 ^ (w * xs.length) * x := Nat.le_add_left _ _

theorem cmp_slice_spec (w : Nat) (a b : List Nat)
    (ha : Bounded w a) (hb : Bounded w b) :
    (cmp_slice a b = Ordering.eq → value w a = value w b) ∧
    (cmp_slice a b = Ordering.lt → value w a < value w b) ∧
    (cmp_slice a b = Ordering.gt → value w b < value w a) := by
  have hzero : (0 : Nat) < 2 ^ w := pow_pos (by norm_num) w
  have hpadb : ∀ (l : List Nat), Bounded w l →
      Bounded w (padTo (max a.length b.length) l).reverse := by
    intro l hl d hd
    rcases List.mem_append.mp (List.mem_reverse.mp hd) with hmem | hmem
    · exact hl d hmem
    · rw [List.eq_of_mem_replicate hmem]; exact hzero
  have hlen : (padTo (max a.length b.length) a).reverse.length
      = (padTo (max a.length b.length) b).reverse.length := by
    simp only [List.length_reverse, padTo, List.length_append, List.length_replicate]
    omega
  have hva : value w ((padTo (max a.length b.length) a).reverse).reverse = value w a := by
    rw [List.reverse_reverse]
    unfold padTo
    rw [value_append, value_replicate_zero, Nat.mul_zero, Nat.add_zero]
  have hvb : value w ((padTo (max a.length b.length) b).reverse).reverse = value w b := by
    rw [List.reverse_reverse]
    unfold padTo
    rw [value_append, value_replicate_zero, Nat.mul_zero, Nat.add_zero]
  obtain ⟨he, hlt, hgt⟩ := cmpBE_spec w (padTo (max a.length b.length) a).reverse
    (padTo (max a.length b.length) b).reverse hlen (hpadb a ha) (hpadb b hb)
  unfold cmp_slice
  refine ⟨fun h => ?_, fun h => ?_, fun h => ?_⟩
  · have := he h; rwa [hva, hvb] at this
  · have := hlt h; rwa [hva, hvb] at this
  · have := hgt h; rwa [hva, hvb] at this

theorem cmp_slice_eq_of (w : Nat) (a b : List Nat)
    (ha : Bounded w a) (hb : Bounded w b) (h : value w a = value w b) :
    cmp_slice a b = Ordering.eq := by
  obtain ⟨he, hlt, hgt⟩ := cmp_slice_spec w a b ha hb
  rcases hcs : cmp_slice a b with _ | _ | _
  · have := hlt hcs; omega
  · rfl
  · have := hgt hcs; omega

theorem cmp_slice_lt_of (w : Nat) (a b : List Nat)
    (ha : Bounded w a) (hb : Bounded w b) (h : value w a < value w b) :
    cmp_slice a b = Ordering.lt := by
  obtain ⟨he, hlt, hgt⟩ := cmp_slice_spec w a b ha hb
  rcases hcs : cmp_slice a b with _ | _ | _
  · rfl
  · have := he hcs; omega
  · have := hgt hcs; omega

theorem cmp_slice_gt_of (w : Nat) (a b : List Nat)
    (ha : Bounded w a) (hb : Bounded w b) (h : value w b < value w a) :
    cmp_slice a b = Ordering.gt := by
  obtain ⟨he, hlt, hgt⟩ := cmp_slice_spec w a b ha hb
  rcases hcs : cmp_slice a b with _ | _ | _
  · have := hlt hcs; omega
  · have := he hcs; omega
  · rfl

end NumBigintSub

namespace NumBigintSub

/-! ### The sign-aware subtractor -/

theorem sub_sign_spec (w : Nat) (hw : 0 < w) (a b : List Nat)
    (ha : Bounded w a) (hb : Bounded w b) :
    ∃ s m, sub_sign w a b = some (s, m) ∧
      Normalized m ∧
      (value w a = value w b → s = Sign.NoSign ∧ m = []) ∧
      (value w b < value w a → s = Sign.Plus ∧ value w m = value w a - value w b) ∧
      (value w a < value w b → s = Sign.Minus ∧ value w m = value w b - value w a) := by
  have hna : Bounded w (normalize a) := normalize_bounded w a ha
  have hnb : Bounded w (normalize b) := normalize_bounded w b hb
  have hva : value w (normalize a) = value w a := value_normalize w a
  have hvb : value w (normalize b) = value w b := value_normalize w b
  rcases Nat.lt_trichotomy (value w a) (value w b) with hlt | heq | hgt
  · -- a < b : Minus
    have hcs : cmp_slice (normalize a) (normalize b) = Ordering.lt :=
      cmp_slice_lt_of w _ _ hna hnb (by omega)
    obtain ⟨hfl, hval, hlen, hbdd⟩ :=
      sub2_core w hw (normalize b) (normalize a) hnb hna (by omega)
    refine ⟨Sign.Minus, new_native (__sub2 w (normalize b) (normalize a)).1,
      ?_, ?_, ?_, ?_, ?_⟩
    · simp [sub_sign, hcs, sub2, hfl]
    · exact normalize_normalized _
    · intro h; omega
    · intro h; omega
    · intro _
      refine ⟨rfl, ?_⟩
      show value w (new_native (__sub2 w (normalize b) (normalize a)).1)
        = value w b - value w a
      unfold new_native
      rw [value_normalize, hval, hva, hvb]
  · -- equal : NoSign, canonical zero
    have hcs : cmp_slice (normalize a) (normalize b) = Ordering.eq :=
      cmp_slice_eq_of w _ _ hna hnb (by omega)
    refine ⟨Sign.NoSign, [], ?_, normalized_nil, fun _ => ⟨rfl, rfl⟩,
      fun h => ?_, fun h => ?_⟩
    · simp [sub_sign, hcs]
    · omega
    · omega
  · -- a > b : Plus
    have hcs : cmp_slice (normalize a) (normalize b) = Ordering.gt :=
      cmp_slice_gt_of w _ _ hna hnb (by omega)
    obtain ⟨hfl, hval, hlen, hbdd⟩ :=
      sub2_core w hw (normalize a) (normalize b) hna hnb (by omega)
    refine ⟨Sign.Plus, new_native (__sub2 w (normalize a) (normalize b)).1,
      ?_, ?_, ?_, ?_, ?_⟩
    · simp [sub_sign, hcs, sub2, hfl]
    · exact normalize_normalized _
    · intro h; omega
    · intro _
      refine ⟨rfl, ?_⟩
      show value w (new_native (__sub2 w (normalize a) (normalize b)).1)
        = value w a - value w b
      unfold new_native
      rw [value_normalize, hval, hva, hvb]
    · intro h; omega

end NumBigintSub

namespace NumBigintSub

/-! ### The reverse subtractor -/

theorem sub2rev_spec (w : Nat) (hw : 0 < w) (a b : List Nat)
    (ha : Bounded w a) (hb : Bounded w b) (hlen : a.length ≤ b.length) :
    ((∃ b', sub2rev w a b = some b') ↔ value w b ≤ value w a) ∧
    (∀ b', sub2rev w a b = some b' →
      b'.length = b.length ∧
      value w b' = value w a - value w b ∧
      value w (b'.take a.length) = value w a - value w b ∧
      (∀ d ∈ b'.drop a.length, d = 0)) := by
  have hn : min a.length b.length = a.length := Nat.min_eq_left hlen
  have hbtl : (b.take a.length).length = a.length := by rw [List.length_take]; omega
  have hLlen : (sbb_loop w a (b.take a.length) 0).1.length = a.length := by
    rw [sbb_loop_length, hbtl, Nat.min_self]
  have hLbdd := sbb_loop_bounded w a (b.take a.length) 0
  have hLdec : (value w (sbb_loop w a (b.take a.length) 0).1 : Int)
      + 2 ^ (w * a.length) * (sbb_loop w a (b.take a.length) 0).2
      = value w a - value w (b.take a.length) := by
    have h := sbb_loop_decomp w a (b.take a.length) 0 (by rw [hbtl])
    linarith [h]
  have hLacc := sbb_loop_acc w a (b.take a.length) 0 ha
    (fun d hd => hb d (List.take_subset _ b hd)) (Or.inl rfl)
  have hLlt : (value w (sbb_loop w a (b.take a.length) 0).1 : Int)
      < 2 ^ (w * a.length) := by
    have h := value_lt w _ hLbdd
    rw [hLlen] at h
    exact_mod_cast h
  have hvalta : value w a < 2 ^ (w * a.length) := value_lt w a ha
  have hbdec : value w b = value w (b.take a.length)
      + 2 ^ (w * a.length) * value w (b.drop a.length) := by
    conv_lhs => rw [← List.take_append_drop a.length b]
    rw [value_append, hbtl]
  have hstep : sub2rev w a b
      = if (!((sbb_loop w a (b.take a.length) 0).2 != 0)
          && (b.drop a.length).all (· == 0))
        then some ((sbb_loop w a (b.take a.length) 0).1 ++ b.drop a.length)
        else none := by
    unfold sub2rev __sub2rev
    rw [hn]
    have hd0 : (b.take a.length).drop a.length = [] :=
      List.drop_eq_nil_of_le (by rw [hbtl])
    simp only [List.take_length, List.drop_length, hd0, List.append_nil,
      List.isEmpty_nil, if_true]
  constructor
  · constructor
    · rintro ⟨b', hb'⟩
      rw [hstep] at hb'
      split at hb'
      · next hcond =>
        rw [Bool.and_eq_true] at hcond
        obtain ⟨h1, h2⟩ := hcond
        have hL2 : (sbb_loop w a (b.take a.length) 0).2 = 0 := by
          rcases hLacc with h | h
          · exact h
          · rw [h] at h1; simp at h1
        have hHiZero : ∀ d ∈ b.drop a.length, d = 0 := by
          intro d hd
          have := (List.all_eq_true.mp h2) d hd
          simpa using this
        have hvdrop : value w (b.drop a.length) = 0 := (value_eq_zero w _).mpr hHiZero
        rw [hvdrop, Nat.mul_zero, Nat.add_zero] at hbdec
        rw [hL2] at hLdec
        -- value of the loop output is `value a - value (b.take _)`, a non-negative Int
        have hnn : (0 : Int) ≤ value w (sbb_loop w a (b.take a.length) 0).1 :=
          Int.ofNat_nonneg _
        omega
      · exact absurd hb' (by simp)
    · intro hba
      have hHiZero : ∀ d ∈ b.drop a.length, d = 0 := by
        by_contra hc
        have h1 : value w (b.drop a.length) ≠ 0 := by
          rw [Ne, value_eq_zero]; exact hc
        have h2 : 2 ^ (w * a.length) ≤ 2 ^ (w * a.length) * value w (b.drop a.length) :=
          Nat.le_mul_of_pos_right _ (by omega)
        have h3 : 2 ^ (w * a.length) * value w (b.drop a.length) ≤ value w b := by
          rw [hbdec]; exact Nat.le_add_left _ _
        have h4 := le_trans h2 h3
        omega
      have hvdrop : value w (b.drop a.length) = 0 := (value_eq_zero w _).mpr hHiZero
      rw [hvdrop, Nat.mul_zero, Nat.add_zero] at hbdec
      have hL2 : (sbb_loop w a (b.take a.length) 0).2 = 0 := by
        rcases hLacc with h | h
        · exact h
        · exfalso
          rw [h] at hLdec
          have hble : (value w (b.take a.length) : Int) ≤ value w a := by
            have : value w (b.take a.length) ≤ value w a := by omega
            exact_mod_cast this
          linarith
      refine ⟨(sbb_loop w a (b.take a.length) 0).1 ++ b.drop a.length, ?_⟩
      rw [hstep]
      have hcond : (!((sbb_loop w a (b.take a.length) 0).2 != 0)
          && (b.drop a.length).all (· == 0)) = true := by
        rw [hL2]
        simp only [bne_self_eq_false, Bool.not_false, Bool.true_and, List.all_eq_true]
        intro d hd
        simpa using hHiZero d hd
      rw [hcond, if_pos rfl]
  · intro b' hb'
    rw [hstep] at hb'
    split at hb'
    · next hcond =>
      rw [Bool.and_eq_true] at hcond
      obtain ⟨h1, h2⟩ := hcond
      have hL2 : (sbb_loop w a (b.take a.length) 0).2 = 0 := by
        rcases hLacc with h | h
        · exact h
        · rw [h] at h1; simp at h1
      have hHiZero : ∀ d ∈ b.drop a.length, d = 0 := by
        intro d hd
        have := (List.all_eq_true.mp h2) d hd
        simpa using this
      have hvdrop : value w (b.drop a.length) = 0 := (value_eq_zero w _).mpr hHiZero
      rw [hvdrop, Nat.mul_zero, Nat.add_zero] at hbdec
      rw [hL2] at hLdec
      have hvL : value w (sbb_loop w a (b.take a.length) 0).1
          = value w a - value w b := by omega
      rw [Option.some.injEq] at hb'
      subst hb'
      refine ⟨?_, ?_, ?_, ?_⟩
      · rw [List.length_append, hLlen, List.length_drop]; omega
      · rw [value_append, hLlen, hvdrop, Nat.mul_zero, Nat.add_zero, hvL]
      · rw [List.take_left' hLlen, hvL]
      · intro d hd
        rw [List.drop_left' hLlen] at hd
        exact hHiZero d hd
    · exact absurd hb' (by simp)

end NumBigintSub

namespace NumBigintSub

/-! ### Claim theorems -/

/-- C1: for all magnitude slices `a` and `b`, `sub_sign a b` returns a
`(Sign, Magnitude)` pair whose signed value equals `value a - value b`:
sign `Plus` with magnitude `value a - value b` when `value a > value b`,
sign `Minus` with magnitude `value b - value a` when `value a < value b`,
and the Zero-sign with the zero magnitude when they are equal. -/
theorem sub_sign_signed_value_correct (w : Nat) (a b : List Nat) (hw : 0 < w)
    (ha : Bounded w a) (hb : Bounded w b) :
    ∃ s m, sub_sign w a b = some (s, m) ∧
      signedValue s (value w m) = (value w a : Int) - value w b ∧
      (value w b < value w a → s = Sign.Plus ∧ value w m = value w a - value w b) ∧
      (value w a < value w b → s = Sign.Minus ∧ value w m = value w b - value w a) ∧
      (value w a = value w b → s = Sign.NoSign ∧ m = []) := by
  obtain ⟨s, m, hsome, hnorm, heq, hplus, hminus⟩ := sub_sign_spec w hw a b ha hb
  refine ⟨s, m, hsome, ?_, fun h => hplus h, fun h => hminus h, fun h => heq h⟩
  rcases Nat.lt_trichotomy (value w a) (value w b) with h | h | h
  · obtain ⟨hs, hm⟩ := hminus h
    subst hs
    simp only [signedValue]
    omega
  · obtain ⟨hs, hm⟩ := heq h
    subst hs
    subst hm
    simp only [signedValue, value_nil]
    omega
  · obtain ⟨hs, hm⟩ := hplus h
    subst hs
    simp only [signedValue]
    omega

/-- Witness for C1 at `w = 64`, `a = [7]`, `b = [9]`. -/
theorem sub_sign_signed_value_correct_witness :
    ∃ s m, sub_sign 64 [7] [9] = some (s, m) ∧
      signedValue s (value 64 m) = (value 64 [7] : Int) - value 64 [9] ∧
      (value 64 [9] < value 64 [7] →
        s = Sign.Plus ∧ value 64 m = value 64 [7] - value 64 [9]) ∧
      (value 64 [7] < value 64 [9] →
        s = Sign.Minus ∧ value 64 m = value 64 [9] - value 64 [7]) ∧
      (value 64 [7] = value 64 [9] → s = Sign.NoSign ∧ m = []) :=
  sub_sign_signed_value_correct 64 [7] [9] (by decide) (by decide) (by decide)

/-- C2: for magnitudes with `value b ≤ value a`, the strict forward subtractor
`sub2 a b` completes without its fatal assertion and leaves `a` (same length,
in place) holding `value a - value b`. -/
theorem sub2_in_place_correct (w : Nat) (a b : List Nat) (hw : 0 < w)
    (ha : Bounded w a) (hb : Bounded w b) (hge : value w b ≤ value w a) :
    ∃ a', sub2 w a b = some a' ∧ value w a' = value w a - value w b ∧
      a'.length = a.length := by
  obtain ⟨hfl, hval, hlen, _⟩ := sub2_core w hw a b ha hb hge
  exact ⟨(__sub2 w a b).1, by simp [sub2, hfl], hval, hlen⟩

/-- Witness for C2 at the claim's concrete input: `[5] - [3]` gives `[2]`
with no underflow. -/
theorem sub2_in_place_correct_witness :
    sub2 64 [5] [3] = some [2] ∧
    (∃ a', sub2 64 [5] [3] = some a' ∧ value 64 a' = value 64 [5] - value 64 [3] ∧
      a'.length = ([5] : List Nat).length) :=
  ⟨by decide, sub2_in_place_correct 64 [5] [3] (by decide) (by decide) (by decide)
    (by decide)⟩

/-- C3 (evaluation at the failing input): the claim says `__sub2 a b` returns
`true` iff `value a - value b` is negative, with no length relationship
required; but at `a = [1]`, `b = [0, 1]` the code ignores `b`'s digits beyond
`a`'s length (the unused `b_hi` half of the split) and reports no underflow
even though `value a < value b`; the strict `sub2` — which the source comments
say is "required to fail on underflow" — silently succeeds there. -/
theorem sub2_underflow_report_failing_input :
    (__sub2 64 [1] [0, 1]).2 = false ∧
    value 64 [1] < value 64 [0, 1] ∧
    sub2 64 [1] [0, 1] = some [1] := by
  refine ⟨by decide, by decide, by decide⟩

/-- C4: `sub_sign` never triggers the fatal underflow assertion of the forward
subtractor it delegates to, its Sign is the Zero-sign iff its magnitude is the
zero value, and the returned magnitude is always normalized. -/
theorem sub_sign_invariants (w : Nat) (a b : List Nat) (hw : 0 < w)
    (ha : Bounded w a) (hb : Bounded w b) :
    ∃ s m, sub_sign w a b = some (s, m) ∧
      (s = Sign.NoSign ↔ value w m = 0) ∧ Normalized m := by
  obtain ⟨s, m, hsome, hnorm, heq, hplus, hminus⟩ := sub_sign_spec w hw a b ha hb
  refine ⟨s, m, hsome, ?_, hnorm⟩
  rcases Nat.lt_trichotomy (value w a) (value w b) with h | h | h
  · obtain ⟨hs, hm⟩ := hminus h
    subst hs
    constructor
    · intro hcontra; exact absurd hcontra (by simp)
    · intro hv; omega
  · obtain ⟨hs, hm⟩ := heq h
    subst hs
    subst hm
    simp [value_nil]
  · obtain ⟨hs, hm⟩ := hplus h
    subst hs
    constructor
    · intro hcontra; exact absurd hcontra (by simp)
    · intro hv; omega

/-- Witness for C4 at `w = 64`, `a = [1, 1]`, `b = [1]`. -/
theorem sub_sign_invariants_witness :
    ∃ s m, sub_sign 64 [1, 1] [1] = some (s, m) ∧
      (s = Sign.NoSign ↔ value 64 m = 0) ∧ Normalized m :=
  sub_sign_invariants 64 [1, 1] [1] (by decide) (by decide) (by decide)

/-- C5: the strict forward subtractor `sub2 a b` aborts fatally exactly when
the reporting variant `__sub2 a b` returns `true`; in particular `[2] - [5]`
triggers the fatal underflow violation. -/
theorem sub2_fatal_iff_report :
    (∀ (w : Nat) (a b : List Nat), sub2 w a b = none ↔ (__sub2 w a b).2 = true) ∧
    sub2 64 [2] [5] = none := by
  constructor
  · intro w a b
    unfold sub2
    cases h : (__sub2 w a b).2 <;> simp [h]
  · decide

end NumBigintSub

namespace NumBigintSub

/-- C6: for `len(a) ≤ len(b)`, the tolerant reverse subtractor `sub2rev a b`
completes without a fatal assertion iff `value a ≥ value b`, and on success
`b` holds the magnitude of `value a - value b` in its first `len(a)` digits
with the remaining digits zero. -/
theorem sub2rev_correct (w : Nat) (a b : List Nat) (hw : 0 < w)
    (ha : Bounded w a) (hb : Bounded w b) (hlen : a.length ≤ b.length) :
    ((∃ b', sub2rev w a b = some b') ↔ value w b ≤ value w a) ∧
    (∀ b', sub2rev w a b = some b' →
      b'.length = b.length ∧
      value w (b'.take a.length) = value w a - value w b ∧
      (∀ d ∈ b'.drop a.length, d = 0)) := by
  obtain ⟨hiff, hcontent⟩ := sub2rev_spec w hw a b ha hb hlen
  refine ⟨hiff, fun b' h => ?_⟩
  obtain ⟨h1, _, h3, h4⟩ := hcontent b' h
  exact ⟨h1, h3, h4⟩

/-- Witness for C6 at `w = 64`, `a = [4]`, `b = [3, 0]`. -/
theorem sub2rev_correct_witness :
    ((∃ b', sub2rev 64 [4] [3, 0] = some b') ↔ value 64 [3, 0] ≤ value 64 [4]) ∧
    (∀ b', sub2rev 64 [4] [3, 0] = some b' →
      b'.length = ([3, 0] : List Nat).length ∧
      value 64 (b'.take ([4] : List Nat).length) = value 64 [4] - value 64 [3, 0] ∧
      (∀ d ∈ b'.drop ([4] : List Nat).length, d = 0)) :=
  sub2rev_correct 64 [4] [3, 0] (by decide) (by decide) (by decide) (by decide)

/-- C7: for digits `a`, `b` and a borrow accumulator holding `0` (no
borrow-in) or `-1` (borrow-in of one), `sbb` returns the low `w` bits of
`a - b - borrow_in`, leaves the accumulator `0` when `a - b - borrow_in ≥ 0`
and `-1` otherwise, and its intermediate signed-accumulator values stay
within the `2*w`-bit two's-complement range. -/
theorem sbb_digit_pair_correct (w : Nat) (a b : Nat) (acc : Int) (hw : 0 < w)
    (ha : a < 2 ^ w) (hb : b < 2 ^ w) (hacc : acc = 0 ∨ acc = -1) :
    ((sbb w a b acc).1 : Int) = ((a : Int) - b + acc) % 2 ^ w ∧
    (sbb w a b acc).2 = (if 0 ≤ (a : Int) - b + acc then 0 else -1) ∧
    (-(2 ^ (2 * w - 1)) ≤ acc + (a : Int) ∧ acc + (a : Int) < 2 ^ (2 * w - 1)) ∧
    (-(2 ^ (2 * w - 1)) ≤ acc + (a : Int) - b ∧
      acc + (a : Int) - b < 2 ^ (2 * w - 1)) := by
  have hA : (a : Int) < 2 ^ w := by exact_mod_cast ha
  have hB : (b : Int) < 2 ^ w := by exact_mod_cast hb
  have ha0 : (0 : Int) ≤ (a : Int) := Int.ofNat_nonneg a
  have hb0 : (0 : Int) ≤ (b : Int) := Int.ofNat_nonneg b
  have hle : (2 : Int) ^ w ≤ 2 ^ (2 * w - 1) :=
    pow_le_pow_right₀ (by norm_num) (by omega)
  have hpos : (0 : Int) < 2 ^ (2 * w - 1) := by positivity
  refine ⟨?_, ?_, ?_, ?_⟩
  · unfold sbb
    simp only
    have hP : (0 : Int) < 2 ^ w := by positivity
    rw [Int.toNat_of_nonneg (Int.emod_nonneg _ hP.ne')]
    ring_nf
  · rw [sbb_snd w a b acc ha hb hacc]
    have hcomm : acc + (a : Int) - b = (a : Int) - b + acc := by ring
    rw [hcomm]
  · rcases hacc with h | h <;> subst h <;> constructor <;> linarith
  · rcases hacc with h | h <;> subst h <;> constructor <;> linarith

/-- Witness for C7 at `w = 64`, `a = 5`, `b = 7`, `acc = -1`. -/
theorem sbb_digit_pair_correct_witness :
    ((sbb 64 5 7 (-1)).1 : Int) = ((5 : Int) - 7 + (-1)) % 2 ^ 64 ∧
    (sbb 64 5 7 (-1)).2 = (if 0 ≤ (5 : Int) - 7 + (-1) then 0 else -1) ∧
    (-(2 ^ (2 * 64 - 1)) ≤ (-1) + (5 : Int) ∧ (-1) + (5 : Int) < 2 ^ (2 * 64 - 1)) ∧
    (-(2 ^ (2 * 64 - 1)) ≤ (-1) + (5 : Int) - 7 ∧
      (-1) + (5 : Int) - 7 < 2 ^ (2 * 64 - 1)) :=
  sbb_digit_pair_correct 64 5 7 (-1) (by decide) (by decide) (by decide)
    (by decide)

/-- C8 as stated is false: at `a = [1]`, `b = [2]` (equal lengths,
`value a ≤ value b`) the reverse subtractor `sub2rev a b` computes `a - b`
into `b` and hits its fatal underflow assertion instead of producing the
magnitude of `b - a`. -/
theorem sub2rev_as_claimed_counterexample :
    ¬ (value 64 [1] ≤ value 64 [2] →
        ∃ b', sub2rev 64 [1] [2] = some b' ∧
          ∃ s m, sub_sign 64 [2] [1] = some (s, m) ∧ value 64 b' = value 64 m) := by
  intro h
  obtain ⟨b', hb', _⟩ := h (by decide)
  have hnone : sub2rev 64 [1] [2] = none := by decide
  rw [hnone] at hb'
  exact Option.noConfusion hb'

/-- C8 (amended): for equal-length magnitudes with `value a ≥ value b`, the
reverse subtractor applied to `b` succeeds and yields the same magnitude
(the same numeric value) as computing `b - a` via the sign-aware subtractor
and discarding the sign. -/
theorem sub2rev_matches_sub_sign (w : Nat) (a b : List Nat) (hw : 0 < w)
    (ha : Bounded w a) (hb : Bounded w b) (hlen : a.length = b.length)
    (hge : value w b ≤ value w a) :
    ∃ b' s m, sub2rev w a b = some b' ∧ sub_sign w b a = some (s, m) ∧
      value w b' = value w m := by
  obtain ⟨hiff, hcontent⟩ := sub2rev_spec w hw a b ha hb (le_of_eq hlen)
  obtain ⟨b', hb'⟩ := hiff.mpr hge
  obtain ⟨_, hval, _, _⟩ := hcontent b' hb'
  obtain ⟨s, m, hsome, hnorm, heq, hplus, hminus⟩ := sub_sign_spec w hw b a hb ha
  refine ⟨b', s, m, hb', hsome, ?_⟩
  rcases Nat.lt_trichotomy (value w b) (value w a) with h | h | h
  · obtain ⟨_, hm⟩ := hminus h
    omega
  · obtain ⟨_, hm⟩ := heq h
    subst hm
    rw [value_nil]
    omega
  · omega

/-- Witness for the amended C8 at `w = 64`, `a = [9, 2]`, `b = [3, 1]`. -/
theorem sub2rev_matches_sub_sign_witness :
    ∃ b' s m, sub2rev 64 [9, 2] [3, 1] = some b' ∧
      sub_sign 64 [3, 1] [9, 2] = some (s, m) ∧ value 64 b' = value 64 m :=
  sub2rev_matches_sub_sign 64 [9, 2] [3, 1] (by decide) (by decide) (by decide)
    (by decide) (by decide)

/-- C9: for a magnitude `a` with a nonzero digit and any `b` longer than `a`,
both the boolean returned by `__sub2 a b` and the final contents of `a`
depend only on the first `len(a)` digits of `b`: replacing the digits of `b`
at indices `≥ len(a)` by any other digits changes neither. -/
theorem sub2_report_ignores_high_digits (w : Nat) (a b b' : List Nat)
    (hnz : is_zero a = false) (hlen : a.length < b.length)
    (hlen' : b'.length = b.length)
    (hpre : b.take a.length = b'.take a.length) :
    __sub2 w a b = __sub2 w a b' := by
  have hanil : a ≠ [] := by
    intro h
    subst h
    simp [is_zero] at hnz
  have hapos : 0 < a.length := List.length_pos.mpr hanil
  have hb1 : (b.length == 1) = false := by
    simp only [beq_eq_false_iff_ne, Ne]
    omega
  have hb1' : (b'.length == 1) = false := by
    simp only [beq_eq_false_iff_ne, Ne]
    omega
  have hmin : min a.length b.length = a.length := by omega
  have hmin' : min a.length b'.length = a.length := by omega
  unfold __sub2
  simp only [hb1, hb1', hnz, Bool.false_eq_true, if_false]
  rw [hmin, hmin', hpre]

/-- Witness for C9 at `w = 64`, `a = [1]`, `b = [0, 5]`, `b' = [0, 9]`. -/
theorem sub2_report_ignores_high_digits_witness :
    __sub2 64 [1] [0, 5] = __sub2 64 [1] [0, 9] :=
  sub2_report_ignores_high_digits 64 [1] [0, 5] [0, 9] (by decide) (by decide)
    (by decide) (by decide)

/-- C10: for an all-zero `a` (including the empty slice) and `b` of length
different from 1, `__sub2 a b` leaves `a` untouched and returns `true`
exactly when `b` has a nonzero digit. -/
theorem sub2_report_zero_fast_path (w : Nat) (a b : List Nat)
    (hza : is_zero a = true) (hb1 : b.length ≠ 1) :
    __sub2 w a b = (a, !is_zero b) ∧
    ((__sub2 w a b).2 = true ↔ ∃ d ∈ b, d ≠ 0) := by
  have hb1' : (b.length == 1) = false := by
    simp only [beq_eq_false_iff_ne, Ne]
    exact hb1
  have hred : __sub2 w a b = (a, !is_zero b) := by
    simp only [__sub2, hb1', Bool.false_eq_true, if_false, hza, if_true]
  refine ⟨hred, ?_⟩
  rw [hred]
  show (!is_zero b) = true ↔ ∃ d ∈ b, d ≠ 0
  rw [Bool.not_eq_true']
  constructor
  · intro h
    by_contra hc
    push_neg at hc
    have : is_zero b = true := (is_zero_iff b).mpr (fun d hd => hc d hd)
    rw [this] at h
    exact Bool.noConfusion h
  · rintro ⟨d, hd, hdnz⟩ 
    cases hzb : is_zero b
    · rfl
    · exact absurd ((is_zero_iff b).mp hzb d hd) hdnz

/-- Witness for C10 at `w = 64`, `a = [0, 0]`, `b = [1, 1]`. -/
theorem sub2_report_zero_fast_path_witness :
    __sub2 64 [0, 0] [1, 1] = ([0, 0], !is_zero [1, 1]) ∧
    ((__sub2 64 [0, 0] [1, 1]).2 = true ↔ ∃ d ∈ [1, 1], d ≠ 0) :=
  sub2_report_zero_fast_path 64 [0, 0] [1, 1] (by decide) (by decide)

end NumBigintSub
